import Mathlib

/-!
Verification of the byte-trie tokenizer and mock logit-synthesis engine
(`guidance/models/_mock.py`).

Byte strings are modelled as `List Nat` (each element one byte).  Token ids
are `Nat` indices into the token table.  Scores ("logits") are modelled by an
extended-rational type `Score` whose `negInf` constructor is absorbing under
addition of a finite value, matching IEEE float behaviour of `-inf + x`.
The seeded pseudo-random generator is modelled as an abstract stream
`rng : Nat -> Rat` read at an advancing cursor, and the numerically
irrelevant `softmax` from the utility module is kept as an explicit function
parameter `smax`.
-/

/-- A score entry of a logits vector: either IEEE negative infinity or a
finite value, with `negInf` absorbing under addition of a finite bias. -/
inductive Score where
  | negInf : Score
  | fin : ℚ → Score
deriving DecidableEq, Repr

/-- `logits[i] += b` on one cell: adding a finite bias to negative infinity
leaves negative infinity, as in float arithmetic. -/
def Score.addQ : Score → ℚ → Score
  | .negInf, _ => .negInf
  | .fin a, b => .fin (a + b)

theorem Score.addQ_addQ (s : Score) (a b : ℚ) :
    (s.addQ a).addQ b = s.addQ (a + b) := by
  cases s with
  | negInf => rfl
  | fin q => simp [Score.addQ, add_assoc]

theorem Score.addQ_zero (s : Score) : s.addQ 0 = s := by
  cases s with
  | negInf => rfl
  | fin q => simp [Score.addQ]

/-- Well-formedness of a byte sequence as strict UTF-8 (what Python's
`bytes.decode("utf8")` accepts): RFC 3629 ranges, rejecting surrogates and
code points above U+10FFFF. -/
def utf8Valid : List Nat → Bool
  | [] => true
  | b :: rest =>
    if b < 0x80 then utf8Valid rest
    else if 0xC2 ≤ b ∧ b ≤ 0xDF then
      match rest with
      | c1 :: rest2 => decide (0x80 ≤ c1 ∧ c1 ≤ 0xBF) && utf8Valid rest2
      | [] => false
    else if b = 0xE0 then
      match rest with
      | c1 :: c2 :: rest2 =>
        decide (0xA0 ≤ c1 ∧ c1 ≤ 0xBF) && decide (0x80 ≤ c2 ∧ c2 ≤ 0xBF) && utf8Valid rest2
      | _ => false
    else if (0xE1 ≤ b ∧ b ≤ 0xEC) ∨ b = 0xEE ∨ b = 0xEF then
      match rest with
      | c1 :: c2 :: rest2 =>
        decide (0x80 ≤ c1 ∧ c1 ≤ 0xBF) && decide (0x80 ≤ c2 ∧ c2 ≤ 0xBF) && utf8Valid rest2
      | _ => false
    else if b = 0xED then
      match rest with
      | c1 :: c2 :: rest2 =>
        decide (0x80 ≤ c1 ∧ c1 ≤ 0x9F) && decide (0x80 ≤ c2 ∧ c2 ≤ 0xBF) && utf8Valid rest2
      | _ => false
    else if b = 0xF0 then
      match rest with
      | c1 :: c2 :: c3 :: rest2 =>
        decide (0x90 ≤ c1 ∧ c1 ≤ 0xBF) && decide (0x80 ≤ c2 ∧ c2 ≤ 0xBF) &&
          decide (0x80 ≤ c3 ∧ c3 ≤ 0xBF) && utf8Valid rest2
      | _ => false
    else if 0xF1 ≤ b ∧ b ≤ 0xF3 then
      match rest with
      | c1 :: c2 :: c3 :: rest2 =>
        decide (0x80 ≤ c1 ∧ c1 ≤ 0xBF) && decide (0x80 ≤ c2 ∧ c2 ≤ 0xBF) &&
          decide (0x80 ≤ c3 ∧ c3 ≤ 0xBF) && utf8Valid rest2
      | _ => false
    else if b = 0xF4 then
      match rest with
      | c1 :: c2 :: c3 :: rest2 =>
        decide (0x80 ≤ c1 ∧ c1 ≤ 0x8F) && decide (0x80 ≤ c2 ∧ c2 ≤ 0xBF) &&
          decide (0x80 ≤ c3 ∧ c3 ≤ 0xBF) && utf8Valid rest2
      | _ => false
    else false

/-- `bytesStartWith s t` : the byte string `s` starts with `t`
(Python `s.startswith(t)`). -/
def bytesStartWith : List Nat → List Nat → Bool
  | _, [] => true
  | [], _ :: _ => false
  | a :: s, b :: t => a == b && bytesStartWith s t

/-- First index of `p` in the token table, if present (the id the trie build
assigns first to the byte string `p`). -/
def firstIdx : List (List Nat) → List Nat → Option Nat
  | [], _ => none
  | t :: ts, p => if t = p then some 0 else (firstIdx ts p).map (· + 1)

theorem firstIdx_isSome_of_mem (ts : List (List Nat)) (p : List Nat) :
    p ∈ ts → (firstIdx ts p).isSome := by
  induction ts with
  | nil => intro h; cases h
  | cons t ts ih =>
    intro h
    by_cases ht : t = p
    · simp [firstIdx, ht]
    · rcases List.mem_cons.mp h with h | h
      · exact absurd h.symm ht
      · simpa [firstIdx, ht, Option.isSome_map] using ih h

theorem firstIdx_getD (ts : List (List Nat)) (p : List Nat) :
    ∀ j, firstIdx ts p = some j → ts.getD j [] = p := by
  induction ts with
  | nil => intro j h; simp [firstIdx] at h
  | cons t ts ih =>
    intro j h
    by_cases ht : t = p
    · simp [firstIdx, ht] at h
      subst h
      simpa using ht
    · simp [firstIdx, ht] at h
      rcases h with ⟨j0, hj0, rfl⟩
      simpa using ih j0 hj0

/-!
## ByteTrie

`ByteTrie` mirrors the Python class: a node holds a terminal `value`
(token id, `-1` sentinel), a `prob` field populated by `computeProbs`, and an
insertion-ordered mapping from single bytes to child nodes (`ChildList`,
modelling the Python dict).  The parent back-reference is navigational only
and carries no information, so it is not modelled.
-/

mutual

inductive ByteTrie : Type where
  | node : Int → ℚ → ChildList → ByteTrie

inductive ChildList : Type where
  | nil : ChildList
  | cons : Nat → ByteTrie → ChildList → ChildList

end

/-- A fresh node, as created by `ByteTrie(parent=self)`: sentinel value `-1`,
probability `0`, no children. -/
def ByteTrie.empty : ByteTrie := .node (-1) 0 .nil

/-- The node's terminal token id (`-1` when none). -/
def ByteTrie.val : ByteTrie → Int
  | .node v _ _ => v

/-- The node's aggregated probability field. -/
def ByteTrie.prob : ByteTrie → ℚ
  | .node _ p _ => p

/-- The node's children, in insertion order. -/
def ByteTrie.children : ByteTrie → ChildList
  | .node _ _ cs => cs

/-- Dict lookup `children[byte]` (first entry with the key). -/
def ChildList.find? : ChildList → Nat → Option ByteTrie
  | .nil, _ => none
  | .cons k t rest, b => if k = b then some t else ChildList.find? rest b

/-- Replace the value stored at an existing key (dict assignment to a key
that is present); identity when the key is absent. -/
def ChildList.replace : ChildList → Nat → ByteTrie → ChildList
  | .nil, _, _ => .nil
  | .cons k t rest, b, t2 =>
    if k = b then .cons k t2 rest else .cons k t (ChildList.replace rest b t2)

/-- Dict assignment to a fresh key: appended at the end (Python dicts keep
insertion order). -/
def ChildList.pushBack : ChildList → Nat → ByteTrie → ChildList
  | .nil, b, t2 => .cons b t2 .nil
  | .cons k t rest, b, t2 => .cons k t (ChildList.pushBack rest b t2)

/-- `insert(s, value)`: walk or create one child per byte; at the terminal
node set `value` only if the current value is negative ("first id wins"). -/
def ByteTrie.insert : ByteTrie → List Nat → Int → ByteTrie
  | .node v p cs, [], value => .node (if v < 0 then value else v) p cs
  | .node v p cs, b :: rest, value =>
    match ChildList.find? cs b with
    | some c => .node v p (ChildList.replace cs b (ByteTrie.insert c rest value))
    | none => .node v p (ChildList.pushBack cs b (ByteTrie.insert ByteTrie.empty rest value))

/-- Terminal value stored at the end of path `s` (`-1` when the path does not
exist). -/
def ByteTrie.valueAt : ByteTrie → List Nat → Int
  | t, [] => t.val
  | t, b :: rest =>
    match ChildList.find? t.children b with
    | some c => ByteTrie.valueAt c rest
    | none => -1

/-- The trie built from a token table with values `0, 1, 2, ...`
(`ByteTrie(byte_strings, np.arange(len(byte_strings)))`), generalized over
the starting index `m`. -/
def ByteTrie.buildFrom : ByteTrie → Nat → List (List Nat) → ByteTrie
  | t, _, [] => t
  | t, m, s :: rest => ByteTrie.buildFrom (t.insert s (Int.ofNat m)) (m + 1) rest

/-- The trie a `MockTokenizer` builds over its token table. -/
def ByteTrie.ofTokens (toks : List (List Nat)) : ByteTrie :=
  ByteTrie.buildFrom ByteTrie.empty 0 toks

mutual

/-- Token ids stored at this node and all descendants (the guard mirrors the
`value != -1` test of `compute_probs`). -/
def ByteTrie.termVals : ByteTrie → List Int
  | .node v _ cs => (if v = -1 then ([] : List Int) else [v]) ++ ChildList.termValsL cs

def ChildList.termValsL : ChildList → List Int
  | .nil => []
  | .cons _ t rest => ByteTrie.termVals t ++ ChildList.termValsL rest

end

/-- The probability mass `compute_probs` is meant to leave at a node: sum of
`probs` over all terminal descendants, itself included. -/
def termSum (probs : Int → ℚ) (t : ByteTrie) : ℚ :=
  ((ByteTrie.termVals t).map probs).sum

/-- Sum of the (already computed) `prob` fields of a child list. -/
def ChildList.probSumL : ChildList → ℚ
  | .nil => 0
  | .cons _ t rest => ByteTrie.prob t + ChildList.probSumL rest

mutual

/-- `compute_probs(probs)`: reset `prob` to 0, add `probs[value]` when the
node is terminal, recurse into every child and add the children's probs. -/
def ByteTrie.computeProbs (probs : Int → ℚ) : ByteTrie → ByteTrie
  | .node v _ cs =>
    let cs2 := ChildList.computeProbsL probs cs
    .node v ((if v = -1 then 0 else probs v) + ChildList.probSumL cs2) cs2

def ChildList.computeProbsL (probs : Int → ℚ) : ChildList → ChildList
  | .nil => .nil
  | .cons b t rest =>
    .cons b (ByteTrie.computeProbs probs t) (ChildList.computeProbsL probs rest)

end

mutual

/-- Decidable check that every node's `prob` equals the sum of `probs` over
its terminal descendants. -/
def probsOkB (probs : Int → ℚ) : ByteTrie → Bool
  | .node v p cs => decide (p = termSum probs (.node v p cs)) && probsOkL probs cs

def probsOkL (probs : Int → ℚ) : ChildList → Bool
  | .nil => true
  | .cons _ t rest => probsOkB probs t && probsOkL probs rest

end

/-!
## MockTokenizer

`encode` is the greedy longest-match scan of `MockTokenizer.encode`; the
inner `while` loop is `ByteTrie.walk`, the outer loop is `encodeLoop`, run
with fuel `s.length` (each iteration advances `pos` by at least one byte, so
this fuel is never exhausted while `pos < s.length`).
-/

/-- Errors raised by `MockTokenizer.encode`: `ValueError` on
`parse_special=False`, and the could-not-find-a-match `ValueError` carrying
the position and the byte at it. -/
inductive EncodeError where
  | unsupportedOption : EncodeError
  | noMatch : Nat → Nat → EncodeError
deriving DecidableEq, Repr

/-- The inner matching loop: starting at byte offset `pos`, follow children
along the remaining bytes `l`, remembering in `last` the pair
`(value, match_pos + 1)` of the deepest node passed whose value is `>= 0`. -/
def ByteTrie.walk : ByteTrie → List Nat → Nat → Option (Int × Nat) → Option (Int × Nat)
  | _, [], _, last => last
  | t, b :: rest, pos, last =>
    match ChildList.find? t.children b with
    | none => last
    | some c =>
      ByteTrie.walk c rest (pos + 1)
        (if 0 ≤ c.val then some (c.val, pos + 1) else last)

/-- The outer scanning loop of `encode`: at each `pos < s.length` run the
walk from the root; on a match emit the token id and continue at the match's
end offset, otherwise fail.  Emitted values are `>= 0`, so they are returned
as `Nat` token ids. -/
def encodeLoop (trie : ByteTrie) (s : List Nat) : Nat → Nat → Except EncodeError (List Nat)
  | _, 0 => .ok []
  | pos, fuel + 1 =>
    if pos < s.length then
      match trie.walk (s.drop pos) pos none with
      | some (v, q) =>
        match encodeLoop trie s q fuel with
        | .ok ids => .ok (v.toNat :: ids)
        | .error e => .error e
      | none => .error (.noMatch pos (s.getD pos 0))
    else .ok []

/-- `MockTokenizer.encode(byte_string, parse_special)`. -/
def mockEncode (toks : List (List Nat)) (s : List Nat) (parseSpecial : Bool) :
    Except EncodeError (List Nat) :=
  if parseSpecial then encodeLoop (ByteTrie.ofTokens toks) s 0 s.length
  else .error .unsupportedOption

/-- Modelled from the spec: `decode(tokenIds)` of the tokenizer adaptation
layer (not part of this file's source) is the concatenation of each id's
vocabulary bytes. -/
def mockDecode (toks : List (List Nat)) (ids : List Nat) : List Nat :=
  (ids.map (fun i => toks.getD i [])).flatten

/-- All lowercase letter pairs `bytes([i, j])` for `i, j` in
`range(ord("a"), ord("z"))` (25 letters `a`..`y`, 625 pairs). -/
def allLcPairs : List (List Nat) :=
  ((List.range 25).map (fun i => (List.range 25).map (fun j => [97 + i, 97 + j]))).flatten

/-- All 256 single-byte tokens. -/
def allBytes : List (List Nat) :=
  (List.range 256).map (fun b => [b])

/-- The `Mock` model's token table: `[b"<s>"] + all_lc_pairs + all_bytes`. -/
def mockTokens : List (List Nat) :=
  [[0x3C, 0x73, 0x3E]] ++ allLcPairs ++ allBytes

theorem mem_mockTokens_single (b : Nat) (hb : b < 256) : [b] ∈ mockTokens := by
  have : [b] ∈ allBytes := by
    simp only [allBytes, List.mem_map, List.mem_range]
    exact ⟨b, hb, rfl⟩
  simp [mockTokens, this]

/-!
## MockEngine: logit synthesis

The engine state that `get_logits` reads is the token table, the bias
patterns, the `force` flag and the seeded random generator.  The generator
(`np.random.default_rng(seed=42)`) is modelled as an abstract value stream
`rng : Nat -> Rat` together with a cursor that advances by one vocabulary
length per non-forced call; two engines built from identical constructor
arguments share the stream because the seed is the literal `42`.
-/

structure MockEngine where
  tokens : List (List Nat)
  bytePatterns : List (List Nat)
  force : Bool
  rng : Nat → ℚ
  bosTokenId : Nat
  eosTokenId : Nat

/-- Bytes of the beginning-of-sequence token. -/
def MockEngine.bosToken (e : MockEngine) : List Nat :=
  e.tokens.getD e.bosTokenId []

/-- Bytes of the end-of-sequence token. -/
def MockEngine.eosToken (e : MockEngine) : List Nat :=
  e.tokens.getD e.eosTokenId []

/-- `_valid_mask[i]`: 1 when token `i`'s bytes decode as UTF-8, else 0. -/
def MockEngine.validMaskQ (e : MockEngine) (i : Nat) : ℚ :=
  if utf8Valid (e.tokens.getD i []) then 1 else 0

/-- Ids of the tokens of the table whose bytes are a prefix of the byte
string `bs` (`for i, t in enumerate(tokens): if bs.startswith(t): yield i`),
with `i0` the id of the first listed token. -/
def matchingFrom : List (List Nat) → Nat → List Nat → List Nat
  | [], _, _ => []
  | t :: ts, i0, bs =>
    if bytesStartWith bs t then i0 :: matchingFrom ts (i0 + 1) bs
    else matchingFrom ts (i0 + 1) bs

/-- `_get_next_tokens(byte_string)`: if the byte string starts with the BOS
or EOS token bytes, yield only that special id; otherwise yield every token
id whose bytes are a prefix of the byte string. -/
def MockEngine.getNextTokens (e : MockEngine) (bs : List Nat) : List Nat :=
  if bytesStartWith bs e.bosToken then [e.bosTokenId]
  else if bytesStartWith bs e.eosToken then [e.eosTokenId]
  else matchingFrom e.tokens 0 bs

/-- `logits[i] += b` on a score vector (out-of-range index is a no-op and is
never exercised by the engine). -/
def updAt : List Score → Nat → ℚ → List Score
  | [], _, _ => []
  | sc :: rest, 0, b => sc.addQ b :: rest
  | sc :: rest, i + 1, b => sc :: updAt rest i b

/-- The inner bias loop of `get_logits`: add the current bias to each yielded
token's score, halving the bias after every single addition, and return the
updated scores together with the bias left for later patterns. -/
def applyBiasTokens : List Score → List Nat → ℚ → List Score × ℚ
  | logits, [], bias => (logits, bias)
  | logits, i :: rest, bias => applyBiasTokens (updAt logits i bias) rest (bias / 2)

/-- The outer bias loop of `get_logits` over the configured patterns: a
pattern applies when it strictly extends the current byte string; the bias
value is threaded through all patterns. -/
def biasLoop (e : MockEngine) : List (List Nat) → List Score → List Nat → ℚ → List Score
  | [], logits, _, _ => logits
  | p :: ps, logits, bs, bias =>
    if bytesStartWith p bs && decide (bs.length < p.length) then
      let r := applyBiasTokens logits (e.getNextTokens (p.drop bs.length)) bias
      biasLoop e ps r.fst bs r.snd
    else biasLoop e ps logits bs bias

/-- The pre-bias score vector: all `-inf` under `force`, else one random
stream value per vocabulary entry multiplied by the UTF-8 validity mask. -/
def MockEngine.baseScores (e : MockEngine) (cursor : Nat) : List Score :=
  if e.force then List.replicate e.tokens.length Score.negInf
  else (List.range e.tokens.length).map
    (fun i => Score.fin (e.rng (cursor + i) * e.validMaskQ i))

/-- `get_logits(token_ids)`: rebuild the byte string, synthesize the base
scores, then apply the pattern biases; returns the scores and the advanced
random-stream cursor. -/
def MockEngine.getLogits (e : MockEngine) (cursor : Nat) (tokenIds : List Nat) :
    List Score × Nat :=
  let bs := mockDecode e.tokens tokenIds
  (biasLoop e e.bytePatterns (e.baseScores cursor) bs 100,
    if e.force then cursor else cursor + e.tokens.length)

/-- A sequence of `get_logits` calls against one engine, threading the
random-stream cursor. -/
def runLogits (e : MockEngine) : Nat → List (List Nat) → List (List Score)
  | _, [] => []
  | cursor, ids :: rest =>
    let r := e.getLogits cursor ids
    r.fst :: runLogits e r.snd rest

/-- The token ids yielded by all applicable patterns, in pattern order then
token order (the flattened iteration order of the two bias loops). -/
def yieldsOf (e : MockEngine) (bs : List Nat) : List Nat :=
  ((e.bytePatterns.filter
      (fun p => bytesStartWith p bs && decide (bs.length < p.length))).map
    (fun p => e.getNextTokens (p.drop bs.length))).flatten

/-- Closed form of the bias decay: the token at position `j` of the yielded
sequence receives `b / 2 ^ j`; `totalBias ys b i` is the total bias a token
id `i` accumulates. -/
def totalBias : List Nat → ℚ → Nat → ℚ
  | [], _, _ => 0
  | y :: ys, b, i => (if y = i then b else 0) + totalBias ys (b / 2) i

/-- Add `f i` to the cell of each index `i`, starting at index `i0`. -/
def addAll : List Score → (Nat → ℚ) → Nat → List Score
  | [], _, _ => []
  | sc :: rest, f, i0 => sc.addQ (f i0) :: addAll rest f (i0 + 1)

/-!
## MockEngine: per-token top-k probabilities

`get_per_token_topk_probs` walks the token sequence position by position.
The schema records keep the raw bytes whose strict UTF-8 decoding the Python
code performs; a token whose bytes are not valid UTF-8 makes the call fail
(`UnicodeDecodeError`), modelled by `DecodeFail`.  `np.argsort` is modelled
as a stable ascending sort of the indices by score (ties by index); the
`softmax` helper of the utility module is an explicit function parameter.
-/

/-- A `GenToken` record: token id, probability, decoded bytes.  The
probability defaults to 0 when the code constructs the record without one
(modelled from the spec: the schema record shape is external plain data). -/
structure GenTok where
  tokenId : Nat
  probV : ℚ
  bytes : List Nat
deriving DecidableEq, Repr

/-- A `GenTokenExtra` record: the per-position entry plus its top-k list. -/
structure GenTokExtra where
  tokenId : Nat
  probV : ℚ
  bytes : List Nat
  topK : List GenTok
deriving DecidableEq, Repr

/-- The `UnicodeDecodeError` raised by `.decode("utf8")` on invalid bytes. -/
inductive DecodeFail where
  | unicodeError : DecodeFail
deriving DecidableEq, Repr

/-- `self.tokenizer.decode([token_id]).decode("utf8")`: the token's bytes,
failing when they are not valid UTF-8. -/
def MockEngine.utf8DecBytes (e : MockEngine) (i : Nat) : Except DecodeFail (List Nat) :=
  let bs := mockDecode e.tokens [i]
  if utf8Valid bs then .ok bs else .error .unicodeError

/-- Strict comparison of two score cells (IEEE order on reals with `-inf`;
two `-inf` are equal). -/
def scoreLtB : Score → Score → Bool
  | .negInf, .negInf => false
  | .negInf, .fin _ => true
  | .fin _, .negInf => false
  | .fin a, .fin b => decide (a < b)

/-- Index comparison for `np.argsort`: by score, ties by original index. -/
def idxLe (xs : List Score) (i j : Nat) : Bool :=
  scoreLtB (xs.getD i .negInf) (xs.getD j .negInf) ||
    (xs.getD i .negInf == xs.getD j .negInf && decide (i ≤ j))

/-- Insert an index into an ascending run (insertion sort step). -/
def insIdx (xs : List Score) (i : Nat) : List Nat → List Nat
  | [] => [i]
  | j :: rest => if idxLe xs i j then i :: j :: rest else j :: insIdx xs i rest

/-- `np.argsort(xs)`: the indices `0..len-1` sorted ascending by score. -/
def argsort (xs : List Score) : List Nat :=
  (List.range xs.length).foldr (insIdx xs) []

/-- `np.argsort(xs)[-k:][::-1]`: the (at most) `k` highest-scoring indices,
highest first. -/
def topkIndices (xs : List Score) (k : Nat) : List Nat :=
  ((argsort xs).drop ((argsort xs).length - k)).reverse

/-- The construction of the `top_k_result` list: one `GenToken` per listed
index, each decoding the index's bytes (first invalid index fails the call). -/
def genTokList (e : MockEngine) (probs : List ℚ) : List Nat → Except DecodeFail (List GenTok)
  | [] => .ok []
  | j :: rest =>
    match e.utf8DecBytes j with
    | .error er => .error er
    | .ok bs =>
      match genTokList e probs rest with
      | .error er => .error er
      | .ok r => .ok (⟨j, probs.getD j 0, bs⟩ :: r)

/-- One iteration of the position loop (`for i in range(1, len(token_ids))`).
After the inner `for token_id in top_k_indices` loop the Python variable
`token_id` holds the LAST listed index, and exactly that id and its
probability are stored in the position's outer record. -/
def topkStep (smax : List Score → List ℚ) (e : MockEngine) (ids2 : List Nat) (k : Nat) :
    Except DecodeFail (List GenTokExtra × Nat) → Nat → Except DecodeFail (List GenTokExtra × Nat)
  | .error er, _ => .error er
  | .ok (acc, cursor), i =>
    let trueId := ids2.getD i 0
    let r := e.getLogits cursor (ids2.take i)
    let probs := smax r.fst
    let tki := topkIndices r.fst k
    let tki2 := if trueId ∈ tki then tki else tki ++ [trueId]
    match genTokList e probs tki2 with
    | .error er => .error er
    | .ok topkRes =>
      let lastId := tki2.getLastD 0
      match e.utf8DecBytes lastId with
      | .error er => .error er
      | .ok bs => .ok (acc ++ [⟨lastId, probs.getD lastId 0, bs, topkRes⟩], r.snd)

/-- `get_per_token_topk_probs(token_ids, top_k)`: empty input returns empty;
otherwise prepend the BOS token when absent, emit the fabricated
probability-1.0 anchor entry for position 0, run the loop from position 1,
and strip the anchor again when the BOS token was prepended. -/
def getPerTokenTopkProbs (smax : List Score → List ℚ) (e : MockEngine)
    (tokenIds : List Nat) (k : Nat) (cursor : Nat) :
    Except DecodeFail (List GenTokExtra × Nat) :=
  match tokenIds with
  | [] => .ok ([], cursor)
  | t0 :: _ =>
    let addedBos := t0 ≠ e.bosTokenId
    let ids2 := if addedBos then e.bosTokenId :: tokenIds else tokenIds
    match e.utf8DecBytes (ids2.getD 0 0) with
    | .error er => .error er
    | .ok bs0 =>
      let anchor : GenTokExtra :=
        ⟨ids2.getD 0 0, 1, bs0, [⟨ids2.getD 0 0, 0, bs0⟩]⟩
      match (List.range' 1 (ids2.length - 1)).foldl (topkStep smax e ids2 k)
          (.ok ([anchor], cursor)) with
      | .error er => .error er
      | .ok (entries, cursor2) =>
        .ok ((if addedBos then entries.drop 1 else entries), cursor2)

/-!
## Trie lemmas: child-list dictionary operations
-/

theorem find?_replace_self : ∀ (cs : ChildList) (b : Nat) (x c : ByteTrie),
    ChildList.find? cs b = some c →
    ChildList.find? (ChildList.replace cs b x) b = some x
  | .nil, b, x, c => by intro h; simp [ChildList.find?] at h
  | .cons k t rest, b, x, c => by
    intro h
    by_cases hk : k = b
    · simp [ChildList.replace, ChildList.find?, hk]
    · simp [ChildList.find?, hk] at h
      simp [ChildList.replace, ChildList.find?, hk]
      exact find?_replace_self rest b x c h

theorem find?_replace_ne : ∀ (cs : ChildList) (b k : Nat) (x : ByteTrie), k ≠ b →
    ChildList.find? (ChildList.replace cs b x) k = ChildList.find? cs k
  | .nil, b, k, x => by intro hk; rfl
  | .cons k2 t rest, b, k, x => by
    intro hk
    by_cases h2 : k2 = b
    · subst h2
      simp [ChildList.replace, ChildList.find?, Ne.symm hk]
    · by_cases h3 : k2 = k
      · simp [ChildList.replace, ChildList.find?, h2, h3, hk]
      · simp [ChildList.replace, ChildList.find?, h2, h3, find?_replace_ne rest b k x hk]

theorem find?_pushBack_self : ∀ (cs : ChildList) (b : Nat) (x : ByteTrie),
    ChildList.find? cs b = none →
    ChildList.find? (ChildList.pushBack cs b x) b = some x
  | .nil, b, x => by intro h; simp [ChildList.pushBack, ChildList.find?]
  | .cons k t rest, b, x => by
    intro h
    by_cases hk : k = b
    · simp [ChildList.find?, hk] at h
    · simp [ChildList.find?, hk] at h
      simp [ChildList.pushBack, ChildList.find?, hk]
      exact find?_pushBack_self rest b x h

theorem find?_pushBack_ne : ∀ (cs : ChildList) (b k : Nat) (x : ByteTrie), k ≠ b →
    ChildList.find? (ChildList.pushBack cs b x) k = ChildList.find? cs k
  | .nil, b, k, x => by
    intro hk
    simp [ChildList.pushBack, ChildList.find?, Ne.symm hk]
  | .cons k2 t rest, b, k, x => by
    intro hk
    by_cases h3 : k2 = k
    · simp [ChildList.pushBack, ChildList.find?, h3]
    · simp [ChildList.pushBack, ChildList.find?, h3, find?_pushBack_ne rest b k x hk]

theorem valueAt_empty (s : List Nat) : ByteTrie.empty.valueAt s = -1 := by
  cases s with
  | nil => rfl
  | cons b rest => rfl

/-- First-insert wins, value view: inserting `v` at path `s` stores `v`
exactly when the path's current value is negative. -/
theorem valueAt_insert_self (s : List Nat) :
    ∀ (t : ByteTrie) (v : Int),
      (t.insert s v).valueAt s = if t.valueAt s < 0 then v else t.valueAt s := by
  induction s with
  | nil =>
    intro t v
    cases t with
    | node v0 p cs => simp [ByteTrie.insert, ByteTrie.valueAt, ByteTrie.val]
  | cons b rest ih =>
    intro t v
    cases t with
    | node v0 p cs =>
      cases hf : ChildList.find? cs b with
      | some c =>
        have h1 := find?_replace_self cs b (c.insert rest v) c hf
        simp [ByteTrie.insert, hf, ByteTrie.valueAt, ByteTrie.children, h1, ih c v]
      | none =>
        have h1 := find?_pushBack_self cs b (ByteTrie.empty.insert rest v) hf
        simp [ByteTrie.insert, hf, ByteTrie.valueAt, ByteTrie.children, h1, ih ByteTrie.empty v,
          valueAt_empty]

/-- Inserting at path `s` does not change the value at any other path. -/
theorem valueAt_insert_ne (s : List Nat) :
    ∀ (p : List Nat) (t : ByteTrie) (v : Int), p ≠ s →
      (t.insert s v).valueAt p = t.valueAt p := by
  induction s with
  | nil =>
    intro p t v hp
    cases t with
    | node v0 p0 cs =>
      cases p with
      | nil => exact absurd rfl hp
      | cons k p2 => simp [ByteTrie.insert, ByteTrie.valueAt, ByteTrie.children]
  | cons b rest ih =>
    intro p t v hp
    cases t with
    | node v0 p0 cs =>
      cases p with
      | nil =>
        cases hf : ChildList.find? cs b <;>
          simp [ByteTrie.insert, hf, ByteTrie.valueAt, ByteTrie.val]
      | cons k p2 =>
        cases hf : ChildList.find? cs b with
        | some c =>
          by_cases hk : k = b
          · subst hk
            have hp2 : p2 ≠ rest := by
              intro h; exact hp (by rw [h])
            have h1 := find?_replace_self cs k (c.insert rest v) c hf
            simp [ByteTrie.insert, hf, ByteTrie.valueAt, ByteTrie.children, h1, hf, ih p2 c v hp2]
          · have h1 := find?_replace_ne cs b k (c.insert rest v) hk
            simp [ByteTrie.insert, hf, ByteTrie.valueAt, ByteTrie.children, h1]
        | none =>
          by_cases hk : k = b
          · subst hk
            have hp2 : p2 ≠ rest := by
              intro h; exact hp (by rw [h])
            have h1 := find?_pushBack_self cs k (ByteTrie.empty.insert rest v) hf
            simp [ByteTrie.insert, hf, ByteTrie.valueAt, ByteTrie.children, h1, hf,
              ih p2 ByteTrie.empty v hp2, valueAt_empty]
          · have h1 := find?_pushBack_ne cs b k (ByteTrie.empty.insert rest v) hk
            simp [ByteTrie.insert, hf, ByteTrie.valueAt, ByteTrie.children, h1]

theorem replace_replace : ∀ (cs : ChildList) (b : Nat) (x y : ByteTrie),
    ChildList.replace (ChildList.replace cs b x) b y = ChildList.replace cs b y
  | .nil, _, _, _ => rfl
  | .cons k t rest, b, x, y => by
    by_cases hk : k = b
    · simp [ChildList.replace, hk]
    · simp [ChildList.replace, hk, replace_replace rest b x y]

theorem replace_pushBack : ∀ (cs : ChildList) (b : Nat) (x y : ByteTrie),
    ChildList.find? cs b = none →
    ChildList.replace (ChildList.pushBack cs b x) b y = ChildList.pushBack cs b y
  | .nil, b, x, y => by intro h; simp [ChildList.pushBack, ChildList.replace]
  | .cons k t rest, b, x, y => by
    intro h
    by_cases hk : k = b
    · simp [ChildList.find?, hk] at h
    · simp [ChildList.find?, hk] at h
      simp [ChildList.pushBack, ChildList.replace, hk, replace_pushBack rest b x y h]

/-- Re-inserting the same byte string is a complete no-op once a
non-negative id occupies the terminal node. -/
theorem insert_insert_eq (s : List Nat) :
    ∀ (t : ByteTrie) (v w : Int), 0 ≤ v → (t.insert s v).insert s w = t.insert s v := by
  induction s with
  | nil =>
    intro t v w hv
    cases t with
    | node v0 p cs =>
      by_cases h0 : v0 < 0
      · simp [ByteTrie.insert, h0, not_lt.mpr hv]
      · simp [ByteTrie.insert, h0]
  | cons b rest ih =>
    intro t v w hv
    cases t with
    | node v0 p cs =>
      cases hf : ChildList.find? cs b with
      | some c =>
        have h1 := find?_replace_self cs b (c.insert rest v) c hf
        simp [ByteTrie.insert, hf, h1, ih c v w hv, replace_replace]
      | none =>
        have h1 := find?_pushBack_self cs b (ByteTrie.empty.insert rest v) hf
        simp [ByteTrie.insert, hf, h1, ih ByteTrie.empty v w hv, replace_pushBack _ _ _ _ hf]

/-- Terminal values of the trie built from a token table: the value at a
path is the index of its first occurrence in the table. -/
theorem valueAt_buildFrom (toks : List (List Nat)) :
    ∀ (t : ByteTrie) (m : Nat) (p : List Nat),
      (ByteTrie.buildFrom t m toks).valueAt p =
        if 0 ≤ t.valueAt p then t.valueAt p
        else
          match firstIdx toks p with
          | some j => ((m + j : Nat) : Int)
          | none => t.valueAt p := by
  induction toks with
  | nil =>
    intro t m p
    simp only [ByteTrie.buildFrom, firstIdx]
    split <;> rfl
  | cons s rest ih =>
    intro t m p
    by_cases hp : p = s
    · subst hp
      rw [ByteTrie.buildFrom, ih (t.insert p (Int.ofNat m)) (m + 1) p,
        valueAt_insert_self]
      by_cases h0 : t.valueAt p < 0
      · have hfi : firstIdx (p :: rest) p = some 0 := by simp [firstIdx]
        simp [h0, hfi, not_le.mpr h0, Int.ofNat_eq_coe]
      · have h0' : 0 ≤ t.valueAt p := not_lt.mp h0
        simp [h0, h0']
    · rw [ByteTrie.buildFrom, ih (t.insert s (Int.ofNat m)) (m + 1) p,
        valueAt_insert_ne s p t (Int.ofNat m) hp]
      have hsp : s ≠ p := fun h => hp h.symm
      have hfi : firstIdx (s :: rest) p = (firstIdx rest p).map (· + 1) := by
        simp [firstIdx, hsp]
      rw [hfi]
      cases hr : firstIdx rest p with
      | none => simp
      | some j =>
        have h2 : m + 1 + j = m + (j + 1) := by omega
        simp [h2]

/-- The trie of a token table stores, at every path present in the table,
the index of the path's first occurrence; all other paths map to `-1`. -/
theorem valueAt_ofTokens (toks : List (List Nat)) (p : List Nat) :
    (ByteTrie.ofTokens toks).valueAt p =
      match firstIdx toks p with
      | some j => (j : Int)
      | none => -1 := by
  rw [ByteTrie.ofTokens, valueAt_buildFrom toks ByteTrie.empty 0 p, valueAt_empty]
  cases hr : firstIdx toks p <;> simp

/-!
## compute_probs lemmas
-/

mutual

theorem termVals_computeProbs (probs : Int → ℚ) : ∀ t : ByteTrie,
    (ByteTrie.computeProbs probs t).termVals = t.termVals
  | .node v p cs => by
    simp [ByteTrie.computeProbs, ByteTrie.termVals, termValsL_computeProbsL probs cs]

theorem termValsL_computeProbsL (probs : Int → ℚ) : ∀ cs : ChildList,
    ChildList.termValsL (ChildList.computeProbsL probs cs) = ChildList.termValsL cs
  | .nil => rfl
  | .cons b t rest => by
    simp [ChildList.computeProbsL, ChildList.termValsL, termVals_computeProbs probs t,
      termValsL_computeProbsL probs rest]

end

mutual

theorem prob_computeProbs (probs : Int → ℚ) : ∀ t : ByteTrie,
    (ByteTrie.computeProbs probs t).prob = termSum probs t
  | .node v p cs => by
    by_cases hv : v = -1 <;>
      simp [ByteTrie.computeProbs, ByteTrie.prob, termSum, ByteTrie.termVals, hv,
        probSumL_computeProbsL probs cs]

theorem probSumL_computeProbsL (probs : Int → ℚ) : ∀ cs : ChildList,
    ChildList.probSumL (ChildList.computeProbsL probs cs) = ((ChildList.termValsL cs).map probs).sum
  | .nil => by simp [ChildList.computeProbsL, ChildList.probSumL, ChildList.termValsL]
  | .cons b t rest => by
    simp [ChildList.computeProbsL, ChildList.probSumL, ChildList.termValsL,
      prob_computeProbs probs t, probSumL_computeProbsL probs rest, termSum]

end

mutual

theorem probsOkB_computeProbs (probs : Int → ℚ) : ∀ t : ByteTrie,
    probsOkB probs (ByteTrie.computeProbs probs t) = true
  | .node v p cs => by
    have h2 := termValsL_computeProbsL probs cs
    have h3 := probSumL_computeProbsL probs cs
    have h4 := probsOkL_computeProbsL probs cs
    by_cases hv : v = -1 <;>
      simp [ByteTrie.computeProbs, probsOkB, termSum, ByteTrie.termVals, h2, h3, h4, hv]

theorem probsOkL_computeProbsL (probs : Int → ℚ) : ∀ cs : ChildList,
    probsOkL probs (ChildList.computeProbsL probs cs) = true
  | .nil => rfl
  | .cons b t rest => by
    simp [ChildList.computeProbsL, probsOkL, probsOkB_computeProbs probs t,
      probsOkL_computeProbsL probs rest]

end

mutual

theorem computeProbs_idem (probs : Int → ℚ) : ∀ t : ByteTrie,
    ByteTrie.computeProbs probs (ByteTrie.computeProbs probs t) = ByteTrie.computeProbs probs t
  | .node v p cs => by
    simp [ByteTrie.computeProbs, computeProbsL_idem probs cs]

theorem computeProbsL_idem (probs : Int → ℚ) : ∀ cs : ChildList,
    ChildList.computeProbsL probs (ChildList.computeProbsL probs cs) = ChildList.computeProbsL probs cs
  | .nil => rfl
  | .cons b t rest => by
    simp [ChildList.computeProbsL, computeProbs_idem probs t, computeProbsL_idem probs rest]

end

theorem termValsL_pushBack : ∀ (cs : ChildList) (b : Nat) (x : ByteTrie),
    ChildList.termValsL (ChildList.pushBack cs b x) =
      ChildList.termValsL cs ++ ByteTrie.termVals x
  | .nil, b, x => by simp [ChildList.pushBack, ChildList.termValsL]
  | .cons k t rest, b, x => by
    simp [ChildList.pushBack, ChildList.termValsL, termValsL_pushBack rest b x]

theorem termValsL_replace_perm : ∀ (cs : ChildList) (b : Nat) (c x : ByteTrie) (v : Int),
    ChildList.find? cs b = some c →
    List.Perm (ByteTrie.termVals x) (v :: ByteTrie.termVals c) →
    List.Perm (ChildList.termValsL (ChildList.replace cs b x)) (v :: ChildList.termValsL cs)
  | .nil, b, c, x, v => by intro h _; simp [ChildList.find?] at h
  | .cons k t rest, b, c, x, v => by
    intro hf hx
    by_cases hk : k = b
    · simp [ChildList.find?, hk] at hf
      subst hf
      simp only [ChildList.replace, hk, if_pos rfl, ChildList.termValsL]
      exact (hx.append_right _).trans (by simp)
    · simp [ChildList.find?, hk] at hf
      have ih := termValsL_replace_perm rest b c x v hf hx
      simp only [ChildList.replace, hk, if_neg hk, ChildList.termValsL]
      exact (ih.append_left _).trans List.perm_middle

/-- Inserting a fresh token id at a path not yet terminal adds exactly that
id to the trie's terminal values. -/
theorem termVals_insert (s : List Nat) :
    ∀ (t : ByteTrie) (v : Int), t.valueAt s = -1 → v ≠ -1 →
      List.Perm ((t.insert s v).termVals) (v :: t.termVals) := by
  induction s with
  | nil =>
    intro t v hval hv
    cases t with
    | node v0 p cs =>
      simp [ByteTrie.valueAt, ByteTrie.val] at hval
      subst hval
      simp [ByteTrie.insert, ByteTrie.termVals, hv]
  | cons b rest ih =>
    intro t v hval hv
    cases t with
    | node v0 p cs =>
      cases hf : ChildList.find? cs b with
      | some c =>
        have hval2 : c.valueAt rest = -1 := by
          simpa [ByteTrie.valueAt, ByteTrie.children, hf] using hval
        have hx := ih c v hval2 hv
        have hr := termValsL_replace_perm cs b c (c.insert rest v) v hf hx
        simp only [ByteTrie.insert, hf, ByteTrie.termVals]
        exact (hr.append_left _).trans List.perm_middle
      | none =>
        have hx := ih ByteTrie.empty v (valueAt_empty rest) hv
        have hemp : ByteTrie.empty.termVals = [] := rfl
        rw [hemp] at hx
        simp only [ByteTrie.insert, hf, ByteTrie.termVals, termValsL_pushBack]
        have h1 : List.Perm
            ((if v0 = -1 then ([] : List Int) else [v0]) ++
              (ChildList.termValsL cs ++ (ByteTrie.empty.insert rest v).termVals))
            ((if v0 = -1 then ([] : List Int) else [v0]) ++
              (ChildList.termValsL cs ++ [v])) :=
          (hx.append_left _).append_left _
        refine h1.trans ?_
        have h2 : List.Perm
            (((if v0 = -1 then ([] : List Int) else [v0]) ++ ChildList.termValsL cs) ++ [v])
            (v :: (((if v0 = -1 then ([] : List Int) else [v0]) ++ ChildList.termValsL cs) ++ [])) :=
          List.perm_middle
        simpa [List.append_assoc] using h2

/-- Building a table of pairwise-distinct token strings into a trie of fresh
paths produces exactly one terminal value per token, namely its index. -/
theorem termVals_buildFrom (toks : List (List Nat)) :
    ∀ (t : ByteTrie) (m : Nat), (∀ x ∈ toks, t.valueAt x = -1) → toks.Nodup →
      List.Perm ((ByteTrie.buildFrom t m toks).termVals)
        ((List.range' m toks.length).map Int.ofNat ++ t.termVals) := by
  induction toks with
  | nil => intro t m _ _; simp [ByteTrie.buildFrom, List.range']
  | cons s rest ih =>
    intro t m hfresh hnd
    have h0 : t.valueAt s = -1 := hfresh s (List.mem_cons_self s rest)
    have hins := termVals_insert s t (Int.ofNat m) h0 (by intro h; rw [Int.ofNat_eq_coe] at h; omega)
    have hnotmem : s ∉ rest := (List.nodup_cons.mp hnd).1
    have hfresh2 : ∀ x ∈ rest, (t.insert s (Int.ofNat m)).valueAt x = -1 := by
      intro x hx
      have hxs : x ≠ s := fun h => hnotmem (h ▸ hx)
      rw [valueAt_insert_ne s x t (Int.ofNat m) hxs]
      exact hfresh x (List.mem_cons_of_mem s hx)
    have hih := ih (t.insert s (Int.ofNat m)) (m + 1) hfresh2 (List.nodup_cons.mp hnd).2
    rw [ByteTrie.buildFrom]
    refine hih.trans ?_
    have h1 : List.Perm
        ((List.range' (m + 1) rest.length).map Int.ofNat ++ (t.insert s (Int.ofNat m)).termVals)
        ((List.range' (m + 1) rest.length).map Int.ofNat ++ (Int.ofNat m :: t.termVals)) :=
      hins.append_left _
    refine h1.trans ?_
    refine List.perm_middle.trans ?_
    simp [List.range']

/-- Claim C6: after `compute_probs(probs)` every node's `prob` equals the sum
of `probs` over its terminal descendants; recomputation is idempotent; and on
the trie of a duplicate-free token table the root aggregates the whole mass,
1 when `probs` sums to 1 over the vocabulary. -/
theorem computeProbs_correct (probs : Int → ℚ) (t : ByteTrie) (toks : List (List Nat))
    (hnd : toks.Nodup)
    (hsum : ((List.range toks.length).map (fun i => probs (Int.ofNat i))).sum = 1) :
    probsOkB probs (ByteTrie.computeProbs probs t) = true ∧
    ByteTrie.computeProbs probs (ByteTrie.computeProbs probs t) = ByteTrie.computeProbs probs t ∧
    ((ByteTrie.ofTokens toks).computeProbs probs).prob = 1 := by
  refine ⟨probsOkB_computeProbs probs t, computeProbs_idem probs t, ?_⟩
  rw [prob_computeProbs]
  have hperm := termVals_buildFrom toks ByteTrie.empty 0 (fun x _ => valueAt_empty x) hnd
  have hemp : ByteTrie.empty.termVals = [] := rfl
  rw [hemp, List.append_nil] at hperm
  have hsum2 := (hperm.map probs).sum_eq
  rw [termSum, ByteTrie.ofTokens] at *
  rw [hsum2]
  rw [← List.range_eq_range', List.map_map]
  exact hsum

/-- Witness for C6 at a concrete one-token table and the probability vector
assigning the full mass to that token. -/
theorem computeProbs_correct_witness :
    ([[97]] : List (List Nat)).Nodup ∧
    ((List.range ([[97]] : List (List Nat)).length).map
      (fun i => (fun _ : Int => (1 : ℚ)) (Int.ofNat i))).sum = 1 ∧
    ((ByteTrie.ofTokens [[97]]).computeProbs (fun _ : Int => (1 : ℚ))).prob = 1 :=
  ⟨by decide, by simp,
    (computeProbs_correct (fun _ : Int => (1 : ℚ)) (ByteTrie.ofTokens [[97]])
      [[97]] (by decide) (by simp)).2.2⟩

/-- Claim C7: `insert` writes the terminal value only over the unset
sentinel; re-inserting the same byte string with another value is a complete
no-op, so the first-inserted id stays. -/
theorem insert_first_wins (t : ByteTrie) (s : List Nat) (v w : Int) (hv : 0 ≤ v) :
    (t.insert s v).insert s w = t.insert s v ∧
    (t.insert s v).valueAt s = if t.valueAt s < 0 then v else t.valueAt s :=
  ⟨insert_insert_eq s t v w hv, valueAt_insert_self s t v⟩

/-- Witness for C7: inserting `"ab"` twice with ids 5 then 9 keeps 5. -/
theorem insert_first_wins_witness :
    (0 : Int) ≤ 5 ∧
    ((ByteTrie.empty.insert [97, 98] 5).insert [97, 98] 9 = ByteTrie.empty.insert [97, 98] 5 ∧
      (ByteTrie.empty.insert [97, 98] 5).valueAt [97, 98] =
        if ByteTrie.empty.valueAt [97, 98] < 0 then 5 else ByteTrie.empty.valueAt [97, 98]) :=
  ⟨by decide, insert_first_wins ByteTrie.empty [97, 98] 5 9 (by decide)⟩

/-!
## Bias application: closed form
-/

/-- The yields of an explicit pattern list (generalization of `yieldsOf`). -/
def yieldsOfPs (e : MockEngine) (ps : List (List Nat)) (bs : List Nat) : List Nat :=
  ((ps.filter (fun p => bytesStartWith p bs && decide (bs.length < p.length))).map
    (fun p => e.getNextTokens (p.drop bs.length))).flatten

theorem yieldsOf_eq_ps (e : MockEngine) (bs : List Nat) :
    yieldsOf e bs = yieldsOfPs e e.bytePatterns bs := rfl

theorem addAll_congr : ∀ (L : List Score) (f g : Nat → ℚ) (i0 : Nat),
    (∀ i, i0 ≤ i → f i = g i) → addAll L f i0 = addAll L g i0
  | [], f, g, i0, _ => rfl
  | sc :: rest, f, g, i0, h => by
    simp only [addAll, h i0 (le_refl i0)]
    rw [addAll_congr rest f g (i0 + 1) (fun i hi => h i (by omega))]

theorem addAll_zero : ∀ (L : List Score) (f : Nat → ℚ) (i0 : Nat),
    (∀ i, i0 ≤ i → f i = 0) → addAll L f i0 = L
  | [], f, i0, _ => rfl
  | sc :: rest, f, i0, h => by
    simp only [addAll, h i0 (le_refl i0), Score.addQ_zero]
    rw [addAll_zero rest f (i0 + 1) (fun i hi => h i (by omega))]

theorem addAll_addAll : ∀ (L : List Score) (f g : Nat → ℚ) (i0 : Nat),
    addAll (addAll L f i0) g i0 = addAll L (fun i => f i + g i) i0
  | [], f, g, i0 => rfl
  | sc :: rest, f, g, i0 => by
    simp only [addAll, Score.addQ_addQ]
    rw [addAll_addAll rest f g (i0 + 1)]

theorem addAll_updAt : ∀ (L : List Score) (y : Nat) (b : ℚ) (f : Nat → ℚ) (i0 : Nat),
    addAll (updAt L y b) f i0 = addAll L (fun i => (if i = i0 + y then b else 0) + f i) i0
  | [], y, b, f, i0 => rfl
  | sc :: rest, 0, b, f, i0 => by
    simp only [updAt, addAll, Score.addQ_addQ, Nat.add_zero, eq_self_iff_true, if_true]
    rw [addAll_congr rest f (fun i => (if i = i0 then b else 0) + f i) (i0 + 1)
      (fun i hi => by
        show f i = (if i = i0 then b else 0) + f i
        rw [if_neg (by omega : ¬ i = i0), zero_add])]
  | sc :: rest, y + 1, b, f, i0 => by
    simp only [updAt, addAll]
    rw [if_neg (by omega : ¬ i0 = i0 + (y + 1)), zero_add,
      addAll_updAt rest y b f (i0 + 1)]
    rw [addAll_congr rest _ _ (i0 + 1)
      (fun i hi => by rw [show i0 + 1 + y = i0 + (y + 1) by omega])]

theorem applyBiasTokens_snd : ∀ (ys : List Nat) (L : List Score) (b : ℚ),
    (applyBiasTokens L ys b).snd = b / 2 ^ ys.length
  | [], L, b => by simp [applyBiasTokens]
  | y :: ys, L, b => by
    simp only [applyBiasTokens, applyBiasTokens_snd ys _ (b / 2), List.length_cons]
    rw [div_div, pow_succ, mul_comm]

theorem applyBiasTokens_fst : ∀ (ys : List Nat) (L : List Score) (b : ℚ),
    (applyBiasTokens L ys b).fst = addAll L (totalBias ys b) 0
  | [], L, b => by
    rw [addAll_zero L (totalBias [] b) 0 (fun i _ => rfl)]
    rfl
  | y :: ys, L, b => by
    simp only [applyBiasTokens, applyBiasTokens_fst ys _ (b / 2), addAll_updAt]
    refine addAll_congr L _ _ 0 (fun i _ => ?_)
    show (if i = 0 + y then b else 0) + totalBias ys (b / 2) i = totalBias (y :: ys) b i
    simp only [totalBias, Nat.zero_add]
    by_cases h : y = i
    · simp [h]
    · rw [if_neg (fun hh => h hh.symm), if_neg h]

theorem totalBias_append : ∀ (ys1 ys2 : List Nat) (b : ℚ) (i : Nat),
    totalBias (ys1 ++ ys2) b i = totalBias ys1 b i + totalBias ys2 (b / 2 ^ ys1.length) i
  | [], ys2, b, i => by simp [totalBias]
  | y :: ys1, ys2, b, i => by
    have harg : b / 2 / 2 ^ ys1.length = b / 2 ^ (ys1.length + 1) := by
      rw [div_div, pow_succ, mul_comm]
    have ih := totalBias_append ys1 ys2 (b / 2) i
    show (if y = i then b else 0) + totalBias (ys1 ++ ys2) (b / 2) i =
      ((if y = i then b else 0) + totalBias ys1 (b / 2) i) +
        totalBias ys2 (b / 2 ^ (ys1.length + 1)) i
    rw [ih, harg, add_assoc]

theorem biasLoop_closed : ∀ (ps : List (List Nat)) (e : MockEngine) (L : List Score)
    (bs : List Nat) (b : ℚ),
    biasLoop e ps L bs b = addAll L (totalBias (yieldsOfPs e ps bs) b) 0
  | [], e, L, bs, b => by
    rw [addAll_zero L (totalBias (yieldsOfPs e [] bs) b) 0 (fun i _ => rfl)]
    rfl
  | p :: ps, e, L, bs, b => by
    by_cases hp : (bytesStartWith p bs && decide (bs.length < p.length)) = true
    · simp only [biasLoop, hp, if_pos rfl, biasLoop_closed ps, applyBiasTokens_fst,
        applyBiasTokens_snd, addAll_addAll]
      have hy : yieldsOfPs e (p :: ps) bs =
          e.getNextTokens (p.drop bs.length) ++ yieldsOfPs e ps bs := by
        simp [yieldsOfPs, List.filter_cons, hp]
      rw [hy]
      exact addAll_congr L _ _ 0 (fun i _ => (totalBias_append _ _ b i).symm)
    · have hy : yieldsOfPs e (p :: ps) bs = yieldsOfPs e ps bs := by
        simp [yieldsOfPs, List.filter_cons, hp]
      simp only [biasLoop]
      rw [if_neg hp, hy, biasLoop_closed ps]

/-- Claim C3 (amended): the bias added by `get_logits` starts at 100.0 and is
halved after every yielded token, across all matching patterns in order: the
j-th yielded token receives `100 / 2 ^ j`, so each token id accumulates
`totalBias` of the flattened yield sequence. -/
theorem getLogits_bias_closed_form (e : MockEngine) (cursor : Nat) (ids : List Nat) :
    (e.getLogits cursor ids).fst =
      addAll (e.baseScores cursor) (totalBias (yieldsOf e (mockDecode e.tokens ids)) 100) 0 := by
  rw [MockEngine.getLogits]
  exact biasLoop_closed e.bytePatterns e (e.baseScores cursor) (mockDecode e.tokens ids) 100

/-!
## Concrete engines for claim evaluations
-/

/-- Tokens `b"<s>", b"a", b"b"`, forcing mode, single bias pattern `b"ab"`. -/
def engForce : MockEngine :=
  { tokens := [[0x3C, 0x73, 0x3E], [97], [98]], bytePatterns := [[97, 98]],
    force := true, rng := fun _ => 0, bosTokenId := 0, eosTokenId := 0 }

/-- Claim C1 (evaluation of the code at the failing input): with `force=true`
and pattern `b"ab"`, on the prefix decoding to the proper prefix `b"a"` the
pattern token `b"b"` (id 2) is yielded and biased, yet every score of the
returned vector is still negative infinity, because the bias is added onto
`-inf`.  No token receives a finite positive score. -/
theorem forceModeAllNegInf :
    mockDecode engForce.tokens [1] = [97] ∧
    bytesStartWith [97, 98] [97] = true ∧ ([97] : List Nat) ≠ [97, 98] ∧
    yieldsOf engForce [97] = [2] ∧
    (engForce.getLogits 0 [1]).fst = [Score.negInf, Score.negInf, Score.negInf] :=
  ⟨rfl, rfl, by decide, rfl, rfl⟩

/-- Tokens `b"<s>", b"a", b"ab"`, two bias patterns `b"ab"` and `b"ac"`, zero
random stream (so each score equals exactly the accumulated bias). -/
def engTwoPat : MockEngine :=
  { tokens := [[0x3C, 0x73, 0x3E], [97], [97, 98]], bytePatterns := [[97, 98], [97, 99]],
    force := false, rng := fun _ => 0, bosTokenId := 0, eosTokenId := 0 }

/-- Claim C3 counterexample: both patterns match the empty prefix; token 2
(`b"ab"`) is a matching token of the first pattern only, yet its score is
`50`, not the claimed per-pattern bias `100` — the bias is halved after every
yielded token, not per pattern (token 1 gets `100 + 25 = 125`). -/
theorem biasDecay_counterexample :
    engTwoPat.getNextTokens [97, 98] = [1, 2] ∧
    engTwoPat.getNextTokens [97, 99] = [1] ∧
    (engTwoPat.getLogits 0 []).fst = [Score.fin 0, Score.fin 125, Score.fin 50] ∧
    ¬ ((50 : ℚ) = 100) := by
  have hnext : engTwoPat.getNextTokens [97, 98] = [1, 2] := by
    simp [MockEngine.getNextTokens, engTwoPat, MockEngine.bosToken, MockEngine.eosToken,
      matchingFrom, bytesStartWith]
  have hnext2 : engTwoPat.getNextTokens [97, 99] = [1] := by
    simp [MockEngine.getNextTokens, engTwoPat, MockEngine.bosToken, MockEngine.eosToken,
      matchingFrom, bytesStartWith]
  refine ⟨hnext, hnext2, ?_, by norm_num⟩
  have hbase : engTwoPat.baseScores 0 = [.fin 0, .fin 0, .fin 0] := by
    simp [MockEngine.baseScores, engTwoPat, List.range_succ]
  have h1 : (engTwoPat.getLogits 0 []).fst
      = biasLoop engTwoPat [[97, 98], [97, 99]] (engTwoPat.baseScores 0) [] 100 := rfl
  rw [h1, hbase]
  simp [biasLoop, applyBiasTokens, updAt, hnext, hnext2, Score.addQ, bytesStartWith]
  norm_num

/-- Claim C9: two engines whose constructor data coincide (token table, bias
patterns, force flag, BOS/EOS ids, and the stream of the seed-42 generator)
return identical logits vectors for every sequence of `get_logits` calls. -/
theorem logits_reproducible (e1 e2 : MockEngine) (ht : e1.tokens = e2.tokens)
    (hp : e1.bytePatterns = e2.bytePatterns) (hf : e1.force = e2.force)
    (hr : e1.rng = e2.rng) (hb : e1.bosTokenId = e2.bosTokenId)
    (he : e1.eosTokenId = e2.eosTokenId) (cursor : Nat) (calls : List (List Nat)) :
    runLogits e1 cursor calls = runLogits e2 cursor calls := by
  have h : e1 = e2 := by cases e1; cases e2; simp_all
  rw [h]

/-- Witness for C9: two separately constructed engines with identical data
give identical logits on a two-call sequence. -/
theorem logits_reproducible_witness :
    runLogits engForce 0 [[], [1]] =
      runLogits
        { tokens := [[0x3C, 0x73, 0x3E], [97], [98]], bytePatterns := [[97, 98]],
          force := true, rng := fun _ => 0, bosTokenId := 0, eosTokenId := 0 }
        0 [[], [1]] :=
  logits_reproducible engForce
    { tokens := [[0x3C, 0x73, 0x3E], [97], [98]], bytePatterns := [[97, 98]],
      force := true, rng := fun _ => 0, bosTokenId := 0, eosTokenId := 0 }
    rfl rfl rfl rfl rfl rfl 0 [[], [1]]

/-!
## Per-token top-k: the true-token entry and the result length
-/

/-- Tokens `b"<s>", b"a", b"b"`, no patterns, stream values 5, 7, 3: the
logits of the single position put the true token first in the top-k list. -/
def engShadow : MockEngine :=
  { tokens := [[0x3C, 0x73, 0x3E], [97], [98]], bytePatterns := [],
    force := false, rng := fun n => [(5 : ℚ), 7, 3].getD n 0, bosTokenId := 0, eosTokenId := 0 }

/-- Claim C2 (evaluation of the code at the failing input): on input `[1]`
(true token id 1, logits 5/7/3, top-k indices `[1, 0, 2]`), the returned
entry reports token id 2 — the LAST top-k index, left in the loop variable
`token_id` by the inner `for token_id in top_k_indices` loop — not the actual
token 1, whatever softmax function is used. -/
theorem topk_true_token_shadowed (smax : List Score → List ℚ) :
    (getPerTokenTopkProbs smax engShadow [1] 5 0).map
      (fun r => r.fst.map (fun g => g.tokenId)) = .ok [2] ∧ (2 : Nat) ≠ 1 := by
  refine ⟨?_, by decide⟩
  have hv0 : utf8Valid [60, 115, 62] = true := by decide
  have hv1 : utf8Valid [97] = true := by decide
  have hv2 : utf8Valid [98] = true := by decide
  have hbase : engShadow.baseScores 0 = [.fin 5, .fin 7, .fin 3] := by
    simp [MockEngine.baseScores, engShadow, List.range_succ, MockEngine.validMaskQ,
      hv0, hv1, hv2]
  have hlog : engShadow.getLogits 0 [0] = ([.fin 5, .fin 7, .fin 3], 3) := by
    rw [show engShadow.getLogits 0 [0]
        = (engShadow.baseScores 0, 0 + engShadow.tokens.length) from rfl, hbase]
    rfl
  have htki : topkIndices [Score.fin 5, Score.fin 7, Score.fin 3] 5 = [1, 0, 2] := by decide
  have hT : engShadow.tokens = [[60, 115, 62], [97], [98]] := rfl
  have hB : engShadow.bosTokenId = 0 := rfl
  simp [getPerTokenTopkProbs, topkStep, List.range', hlog, htki, genTokList,
    MockEngine.utf8DecBytes, mockDecode, hT, hB, hv0, hv1, hv2, Except.map]

theorem topkStep_error (smax : List Score → List ℚ) (e : MockEngine) (ids2 : List Nat)
    (k : Nat) (er : DecodeFail) (i : Nat) :
    topkStep smax e ids2 k (.error er) i = .error er := rfl

theorem topkStep_ok_length (smax : List Score → List ℚ) (e : MockEngine) (ids2 : List Nat)
    (k : Nat) (acc : List GenTokExtra) (c : Nat) (i : Nat) (l1 : List GenTokExtra) (c1 : Nat)
    (h : topkStep smax e ids2 k (.ok (acc, c)) i = .ok (l1, c1)) :
    l1.length = acc.length + 1 := by
  simp only [topkStep] at h
  split at h
  · exact absurd h (by simp)
  · split at h
    · exact absurd h (by simp)
    · simp only [Except.ok.injEq, Prod.mk.injEq] at h
      rw [← h.1]
      simp

theorem topkFold_length (smax : List Score → List ℚ) (e : MockEngine) (ids2 : List Nat)
    (k : Nat) : ∀ (l : List Nat) (st : Except DecodeFail (List GenTokExtra × Nat))
      (lst : List GenTokExtra) (c : Nat),
    l.foldl (topkStep smax e ids2 k) st = .ok (lst, c) →
    ∃ lst0 c0, st = .ok (lst0, c0) ∧ lst.length = lst0.length + l.length
  | [], st, lst, c => by
    intro h
    exact ⟨lst, c, h, by simp⟩
  | i :: l, st, lst, c => by
    intro h
    rw [List.foldl_cons] at h
    obtain ⟨l1, c1, hst, hlen⟩ := topkFold_length smax e ids2 k l _ lst c h
    cases st with
    | error er => rw [topkStep_error] at hst; exact absurd hst (by simp)
    | ok pr =>
      obtain ⟨l0, c0⟩ := pr
      refine ⟨l0, c0, rfl, ?_⟩
      have h2 := topkStep_ok_length smax e ids2 k l0 c0 i l1 c1 hst
      simp only [List.length_cons]
      omega

/-- Claim C10 (amended): whenever `get_per_token_topk_probs` returns a result
list (no token's bytes failed UTF-8 decoding), the list has exactly one entry
per input token — the fabricated anchor entry of a prepended BOS token is
stripped; and the empty input returns the empty list with the random-stream
cursor untouched (no `get_logits` call). -/
theorem topkProbs_length (smax : List Score → List ℚ) (e : MockEngine) (ids : List Nat)
    (k cursor : Nat) (l : List GenTokExtra) (c : Nat)
    (h : getPerTokenTopkProbs smax e ids k cursor = .ok (l, c)) :
    l.length = ids.length ∧ getPerTokenTopkProbs smax e [] k cursor = .ok ([], cursor) := by
  refine ⟨?_, rfl⟩
  cases ids with
  | nil =>
    simp only [getPerTokenTopkProbs, Except.ok.injEq, Prod.mk.injEq] at h
    rw [← h.1]
    rfl
  | cons t0 rest =>
    simp only [getPerTokenTopkProbs] at h
    split at h
    · exact absurd h (by simp)
    · split at h
      · exact absurd h (by simp)
      · rename_i entries0 bs0 hfold
        obtain ⟨l0, c0, hst, hlen⟩ := topkFold_length smax e _ k _ _ entries0 bs0 hfold
        simp only [Except.ok.injEq, Prod.mk.injEq] at hst h
        obtain ⟨hst1, _⟩ := hst
        obtain ⟨h1, _⟩ := h
        have hl0 : l0.length = 1 := by rw [← hst1]; rfl
        simp only [List.length_range'] at hlen
        by_cases hbos : t0 ≠ e.bosTokenId
        · rw [if_pos hbos] at h1 hlen
          rw [← h1]
          simp only [List.length_drop, List.length_cons] at *
          omega
        · rw [if_neg hbos] at h1 hlen
          rw [← h1]
          simp only [List.length_cons] at *
          omega

/-- Two tokens `b"<s>"` and the invalid-UTF-8 byte `0xFF`. -/
def engBad : MockEngine :=
  { tokens := [[0x3C, 0x73, 0x3E], [255]], bytePatterns := [],
    force := false, rng := fun _ => 0, bosTokenId := 0, eosTokenId := 0 }

/-- Claim C10 counterexample: on the one-token input `[1]` whose token bytes
`0xFF` are not valid UTF-8, the call fails with `UnicodeDecodeError` instead
of returning a one-entry list. -/
theorem topkProbs_decode_failure :
    getPerTokenTopkProbs (fun _ => []) engBad [1] 5 0 = .error .unicodeError := by
  have hv0 : utf8Valid [60, 115, 62] = true := by decide
  have hv255 : utf8Valid [255] = false := by decide
  have hbase : engBad.baseScores 0 = [.fin 0, .fin 0] := by
    simp [MockEngine.baseScores, engBad, List.range_succ]
  have hlog : engBad.getLogits 0 [0] = ([.fin 0, .fin 0], 2) := by
    rw [show engBad.getLogits 0 [0]
        = (engBad.baseScores 0, 0 + engBad.tokens.length) from rfl, hbase]
    rfl
  have htki : topkIndices [Score.fin 0, Score.fin 0] 5 = [1, 0] := by decide
  have hT : engBad.tokens = [[60, 115, 62], [255]] := rfl
  have hB : engBad.bosTokenId = 0 := rfl
  simp [getPerTokenTopkProbs, topkStep, List.range', hlog, htki, genTokList,
    MockEngine.utf8DecBytes, mockDecode, hT, hB, hv0, hv255]

/-- Tokens `b"<s>", b"a"`, forcing mode: a successful top-k walk. -/
def engAnchor : MockEngine :=
  { tokens := [[0x3C, 0x73, 0x3E], [97]], bytePatterns := [],
    force := true, rng := fun _ => 0, bosTokenId := 0, eosTokenId := 0 }

/-- Witness for the amended C10: a successful run on a one-token input
returns exactly one entry, and the empty input returns the empty list. -/
theorem topkProbs_length_witness :
    getPerTokenTopkProbs (fun _ => []) engAnchor [1] 5 0 =
      .ok ([⟨0, 0, [60, 115, 62], [⟨1, 0, [97]⟩, ⟨0, 0, [60, 115, 62]⟩]⟩], 0) ∧
    ([⟨0, 0, [60, 115, 62], [⟨1, 0, [97]⟩, ⟨0, 0, [60, 115, 62]⟩]⟩] : List GenTokExtra).length
      = ([1] : List Nat).length ∧
    getPerTokenTopkProbs (fun _ => []) engAnchor [] 5 0 = .ok ([], 0) :=
  ⟨rfl,
    (topkProbs_length (fun _ => []) engAnchor [1] 5 0
      [⟨0, 0, [60, 115, 62], [⟨1, 0, [97]⟩, ⟨0, 0, [60, 115, 62]⟩]⟩] 0 rfl).1,
    (topkProbs_length (fun _ => []) engAnchor [1] 5 0
      [⟨0, 0, [60, 115, 62], [⟨1, 0, [97]⟩, ⟨0, 0, [60, 115, 62]⟩]⟩] 0 rfl).2⟩

/-!
## Walk lemmas: the inner matching loop
-/

theorem valueAt_nil (t : ByteTrie) : t.valueAt [] = t.val := rfl

theorem valueAt_cons (t : ByteTrie) (b : Nat) (rest : List Nat) :
    t.valueAt (b :: rest) =
      match ChildList.find? t.children b with
      | some c => c.valueAt rest
      | none => -1 := by
  cases t
  rfl

theorem walk_nil (t : ByteTrie) (pos : Nat) (last : Option (Int × Nat)) :
    ByteTrie.walk t [] pos last = last := rfl

theorem walk_cons (t : ByteTrie) (b : Nat) (rest : List Nat) (pos : Nat)
    (last : Option (Int × Nat)) :
    ByteTrie.walk t (b :: rest) pos last =
      match ChildList.find? t.children b with
      | none => last
      | some c =>
        ByteTrie.walk c rest (pos + 1)
          (if 0 ≤ c.val then some (c.val, pos + 1) else last) := by
  cases t
  rfl

theorem walk_isSome : ∀ (l : List Nat) (t : ByteTrie) (pos : Nat) (x : Int × Nat),
    ∃ y, ByteTrie.walk t l pos (some x) = some y
  | [], _, _, x => ⟨x, rfl⟩
  | b :: rest, t, pos, x => by
    cases hf : ChildList.find? t.children b with
    | none => exact ⟨x, by simp [walk_cons, hf]⟩
    | some c =>
      by_cases hv : 0 ≤ c.val
      · obtain ⟨y, hy⟩ := walk_isSome rest c (pos + 1) (c.val, pos + 1)
        exact ⟨y, by simp [walk_cons, hf, hv, hy]⟩
      · obtain ⟨y, hy⟩ := walk_isSome rest c (pos + 1) x
        exact ⟨y, by simp [walk_cons, hf, hv, hy]⟩

/-- Soundness of the walk: a returned match is either the remembered one, or
a strictly later offset whose consumed segment is a terminal trie path with
the returned (non-negative) value. -/
theorem walk_spec : ∀ (l : List Nat) (t : ByteTrie) (pos : Nat) (last : Option (Int × Nat))
    (v : Int) (q : Nat),
    ByteTrie.walk t l pos last = some (v, q) →
    last = some (v, q) ∨
      (pos < q ∧ q ≤ pos + l.length ∧ 0 ≤ v ∧ t.valueAt (l.take (q - pos)) = v)
  | [], t, pos, last, v, q => by
    intro h
    exact Or.inl h
  | b :: rest, t, pos, last, v, q => by
    intro h
    cases hf : ChildList.find? t.children b with
    | none =>
      rw [walk_cons, hf] at h
      exact Or.inl h
    | some c =>
      rw [walk_cons, hf] at h
      rcases walk_spec rest c (pos + 1) _ v q h with h2 | ⟨h2, h3, h4, h5⟩
      · by_cases hv : 0 ≤ c.val
        · rw [if_pos hv] at h2
          injection h2 with h2
          cases h2
          refine Or.inr ⟨by omega, by simp, hv, ?_⟩
          have hq : pos + 1 - pos = 1 := by omega
          rw [hq, List.take_succ_cons, List.take_zero]
          simp [valueAt_cons, hf, valueAt_nil]
        · rw [if_neg hv] at h2
          exact Or.inl h2
      · refine Or.inr ⟨by omega, by simp; omega, h4, ?_⟩
        have hq : q - pos = (q - (pos + 1)) + 1 := by omega
        rw [hq, List.take_succ_cons]
        simp only [valueAt_cons, hf]
        exact h5

/-- Completeness of the walk: if some strictly positive number of upcoming
bytes forms a terminal trie path, the walk returns a match extending at least
that far. -/
theorem walk_complete : ∀ (l : List Nat) (k : Nat) (t : ByteTrie) (pos : Nat)
    (last : Option (Int × Nat)),
    1 ≤ k → k ≤ l.length → 0 ≤ t.valueAt (l.take k) →
    ∃ v q, ByteTrie.walk t l pos last = some (v, q) ∧ pos + k ≤ q
  | [], k, t, pos, last => by
    intro h1 h2 _
    simp at h2
    omega
  | _ :: _, 0, _, _, _ => by
    intro h1 _ _
    omega
  | b :: rest, 1, t, pos, last => by
    intro _ _ hval
    rw [List.take_succ_cons, List.take_zero] at hval
    cases hf : ChildList.find? t.children b with
    | none => simp [valueAt_cons, hf] at hval
    | some c =>
      have hcv : 0 ≤ c.val := by
        simpa [valueAt_cons, hf, valueAt_nil] using hval
      obtain ⟨⟨v, q⟩, hy⟩ := walk_isSome rest c (pos + 1) (c.val, pos + 1)
      refine ⟨v, q, ?_, ?_⟩
      · rw [walk_cons, hf]
        simp only [if_pos hcv]
        exact hy
      · rcases walk_spec rest c (pos + 1) _ v q hy with h2 | ⟨h2, _, _, _⟩
        · injection h2 with h2
          cases h2
          omega
        · omega
  | b :: rest, (j+2), t, pos, last => by
    intro _ hk hval
    rw [List.take_succ_cons] at hval
    cases hf : ChildList.find? t.children b with
    | none => simp [valueAt_cons, hf] at hval
    | some c =>
      have hval2 : 0 ≤ c.valueAt (rest.take (j + 1)) := by
        simpa [valueAt_cons, hf] using hval
      have hk2 : j + 1 ≤ rest.length := by simpa using hk
      obtain ⟨v, q, hw, hq⟩ := walk_complete rest (j + 1) c (pos + 1)
        (if 0 ≤ c.val then some (c.val, pos + 1) else last) (by omega) hk2 hval2
      refine ⟨v, q, ?_, by omega⟩
      rw [walk_cons, hf]
      exact hw

/-!
## Encode: greedy scan round-trip
-/

/-- The greedy scan with enough fuel succeeds and its emitted ids decode back
to the remaining input, provided every single byte of the input is a token
and the trie's terminal values index the token table. -/
theorem encodeLoop_roundtrip (trie : ByteTrie) (toks : List (List Nat))
    (hsound : ∀ p, 0 ≤ trie.valueAt p → toks.getD (trie.valueAt p).toNat [] = p)
    (s : List Nat) (hsingle : ∀ b ∈ s, 0 ≤ trie.valueAt [b]) :
    ∀ (fuel pos : Nat), s.length ≤ pos + fuel →
      ∃ ids, encodeLoop trie s pos fuel = .ok ids ∧ mockDecode toks ids = s.drop pos := by
  intro fuel
  induction fuel with
  | zero =>
    intro pos hb
    refine ⟨[], rfl, ?_⟩
    rw [List.drop_eq_nil_of_le (by omega)]
    rfl
  | succ fuel ih =>
    intro pos hb
    by_cases hpos : pos < s.length
    · have hdrop : s.drop pos = s[pos] :: s.drop (pos + 1) := List.drop_eq_getElem_cons hpos
      have hbmem : s[pos] ∈ s := List.getElem_mem hpos
      have hsb : 0 ≤ trie.valueAt [s[pos]] := hsingle _ hbmem
      have htake1 : (s.drop pos).take 1 = [s[pos]] := by rw [hdrop]; rfl
      have hlen1 : 1 ≤ (s.drop pos).length := by
        rw [List.length_drop]
        omega
      obtain ⟨v, q, hw, hq⟩ := walk_complete (s.drop pos) 1 trie pos none (le_refl 1) hlen1
        (by rw [htake1]; exact hsb)
      rcases walk_spec _ _ _ _ _ _ hw with h2 | ⟨h2, h3, h4, h5⟩
      · exact absurd h2 (by simp)
      · have hql : q ≤ s.length := by
          rw [List.length_drop] at h3
          omega
        obtain ⟨ids, hok, hdec⟩ := ih q (by omega)
        refine ⟨v.toNat :: ids, ?_, ?_⟩
        · simp only [encodeLoop, hpos, if_true, hw, hok]
        · have hs2 := hsound ((s.drop pos).take (q - pos)) (by rw [h5]; exact h4)
          rw [h5] at hs2
          show toks.getD v.toNat [] ++ mockDecode toks ids = s.drop pos
          rw [hs2, hdec]
          have hdd : (s.drop pos).drop (q - pos) = s.drop q := by
            rw [List.drop_drop]
            congr 1
            omega
          rw [← hdd, List.take_append_drop]
    · refine ⟨[], ?_, ?_⟩
      · simp only [encodeLoop, hpos, if_false]
      · rw [List.drop_eq_nil_of_le (by omega)]
        rfl

theorem valueAt_ofTokens_some (toks : List (List Nat)) (p : List Nat) (j : Nat)
    (hfi : firstIdx toks p = some j) :
    (ByteTrie.ofTokens toks).valueAt p = (j : Int) := by
  rw [valueAt_ofTokens, hfi]

theorem valueAt_ofTokens_none (toks : List (List Nat)) (p : List Nat)
    (hfi : firstIdx toks p = none) :
    (ByteTrie.ofTokens toks).valueAt p = -1 := by
  rw [valueAt_ofTokens, hfi]

theorem mockTokens_sound : ∀ p, 0 ≤ (ByteTrie.ofTokens mockTokens).valueAt p →
    mockTokens.getD ((ByteTrie.ofTokens mockTokens).valueAt p).toNat [] = p := by
  intro p h
  cases hfi : firstIdx mockTokens p with
  | none =>
    rw [valueAt_ofTokens_none mockTokens p hfi] at h
    exact absurd h (by decide)
  | some j =>
    rw [valueAt_ofTokens_some mockTokens p j hfi] at h ⊢
    simp only [Int.toNat_natCast]
    exact firstIdx_getD mockTokens p j hfi

/-- Claim C4: over the Mock vocabulary (which contains all 256 single-byte
tokens), encoding any byte string succeeds and decoding the resulting ids
reproduces the input exactly. -/
theorem mock_encode_roundtrip (s : List Nat) (hs : ∀ b ∈ s, b < 256) :
    ∃ ids, mockEncode mockTokens s true = .ok ids ∧ mockDecode mockTokens ids = s := by
  have hsingle : ∀ b ∈ s, 0 ≤ (ByteTrie.ofTokens mockTokens).valueAt [b] := by
    intro b hb
    have hmem := mem_mockTokens_single b (hs b hb)
    have hsome := firstIdx_isSome_of_mem mockTokens [b] hmem
    cases hfi : firstIdx mockTokens [b] with
    | none =>
      rw [hfi] at hsome
      simp at hsome
    | some j =>
      rw [valueAt_ofTokens_some mockTokens [b] j hfi]
      exact Int.natCast_nonneg j
  obtain ⟨ids, hok, hdec⟩ := encodeLoop_roundtrip (ByteTrie.ofTokens mockTokens) mockTokens
    mockTokens_sound s hsingle s.length 0 (by omega)
  refine ⟨ids, ?_, ?_⟩
  · simpa [mockEncode] using hok
  · simpa using hdec

/-- Witness for C4: the byte string `b"hi"` round-trips. -/
theorem mock_encode_roundtrip_witness :
    (∀ b ∈ ([104, 105] : List Nat), b < 256) ∧
    ∃ ids, mockEncode mockTokens [104, 105] true = .ok ids ∧
      mockDecode mockTokens ids = [104, 105] :=
  ⟨by decide, mock_encode_roundtrip [104, 105] (by decide)⟩

/-- The claim C5 vocabulary: `b"<s>"`, `b"a"` (id 1), `b"ab"` (id 2), plus
all 256 single-byte fallback tokens (`b"b"` has id 101). -/
def tokens5 : List (List Nat) := [[0x3C, 0x73, 0x3E], [97], [97, 98]] ++ allBytes

set_option maxRecDepth 10000 in
/-- Claim C5: greedy longest-match — encoding `b"ab"` over a vocabulary
containing `b"a"` (id 1) and `b"ab"` (id 2) yields the single token id 2, not
id 1 followed by the single-byte token `b"b"` (id 101). -/
theorem greedy_longest_match :
    tokens5.getD 1 [] = [97] ∧ tokens5.getD 2 [] = [97, 98] ∧ tokens5.getD 101 [] = [98] ∧
    mockEncode tokens5 [97, 98] true = .ok [2] ∧
    mockEncode tokens5 [97, 98] true ≠ .ok [1, 101] := by
  have hEnc : mockEncode tokens5 [97, 98] true = .ok [2] := rfl
  refine ⟨rfl, rfl, rfl, hEnc, ?_⟩
  rw [hEnc]
  simp

/-!
## Encode: error contract
-/

/-- The byte offsets visited by the greedy scan when started at `pos`:
`pos` itself, and from any visited in-range offset the end offset of the walk
match found there. -/
inductive Reaches (trie : ByteTrie) (s : List Nat) : Nat → Nat → Prop where
  | refl (pos : Nat) : Reaches trie s pos pos
  | step {pos p q : Nat} {v : Int} : Reaches trie s pos p → p < s.length →
      trie.walk (s.drop p) p none = some (v, q) → Reaches trie s pos q

theorem reaches_of_le (trie : ByteTrie) (s : List Nat) (pos : Nat)
    (hlen : s.length ≤ pos) : ∀ p, Reaches trie s pos p → p = pos := by
  intro p h
  induction h with
  | refl => rfl
  | step h1 h2 h3 ih =>
    subst ih
    omega

theorem reaches_prepend (trie : ByteTrie) (s : List Nat) (pos q : Nat) (v : Int)
    (hpos : pos < s.length) (hw : trie.walk (s.drop pos) pos none = some (v, q)) :
    ∀ p, Reaches trie s q p → Reaches trie s pos p := by
  intro p h
  induction h with
  | refl => exact .step (.refl pos) hpos hw
  | step h1 h2 h3 ih => exact .step ih h2 h3

theorem reaches_inv (trie : ByteTrie) (s : List Nat) (pos q : Nat) (v : Int)
    (hw : trie.walk (s.drop pos) pos none = some (v, q)) :
    ∀ p, Reaches trie s pos p → p = pos ∨ Reaches trie s q p := by
  intro p h
  induction h with
  | refl => exact Or.inl rfl
  | step h1 h2 h3 ih =>
    rename_i p1 q1 v1
    rcases ih with h4 | h4
    · subst h4
      rw [hw] at h3
      injection h3 with h3
      have hq : q1 = q := by
        have h5 := congrArg Prod.snd h3
        simp at h5
        omega
      refine Or.inr ?_
      rw [hq]
      exact .refl q
    · exact Or.inr (.step h4 h2 h3)

/-- Loop characterization of the greedy scan with sufficient fuel: every
error is a `noMatch` at a reachable in-range offset whose walk finds no
terminal, carrying that offset and the byte there; and the scan succeeds
exactly when no reachable in-range offset fails. -/
theorem encodeLoop_spec (trie : ByteTrie) (s : List Nat) :
    ∀ (fuel pos : Nat), s.length ≤ pos + fuel →
      ((∀ er, encodeLoop trie s pos fuel = .error er →
          ∃ p, Reaches trie s pos p ∧ p < s.length ∧
            trie.walk (s.drop p) p none = none ∧ er = .noMatch p (s.getD p 0)) ∧
        ((∃ ids, encodeLoop trie s pos fuel = .ok ids) ↔
          ∀ p, Reaches trie s pos p → p < s.length →
            trie.walk (s.drop p) p none ≠ none)) := by
  intro fuel
  induction fuel with
  | zero =>
    intro pos hb
    constructor
    · intro er her
      exact absurd her (by simp [encodeLoop])
    · constructor
      · intro _ p hp hplen
        have := reaches_of_le trie s pos (by omega) p hp
        omega
      · intro _
        exact ⟨[], rfl⟩
  | succ fuel ih =>
    intro pos hb
    by_cases hpos : pos < s.length
    · cases hw : trie.walk (s.drop pos) pos none with
      | none =>
        constructor
        · intro er her
          simp only [encodeLoop, hpos, if_true, hw] at her
          refine ⟨pos, .refl pos, hpos, hw, ?_⟩
          injection her with her
          exact her.symm
        · constructor
          · intro ⟨ids, hok⟩
            simp only [encodeLoop, hpos, if_true, hw] at hok
            simp at hok
          · intro hall
            exact absurd hw (hall pos (.refl pos) hpos)
      | some pr =>
        obtain ⟨v, q⟩ := pr
        have hprog : pos < q := by
          rcases walk_spec _ _ _ _ _ _ hw with h2 | ⟨h2, _, _, _⟩
          · exact absurd h2 (by simp)
          · exact h2
        obtain ⟨iherr, ihiff⟩ := ih q (by omega)
        constructor
        · intro er her
          simp only [encodeLoop, hpos, if_true, hw] at her
          cases hrec : encodeLoop trie s q fuel with
          | ok ids => rw [hrec] at her; simp at her
          | error er2 =>
            rw [hrec] at her
            simp only at her
            injection her with her
            subst her
            obtain ⟨p, hre, hplen, hwp, herr⟩ := iherr er2 hrec
            exact ⟨p, reaches_prepend trie s pos q v hpos hw p hre, hplen, hwp, herr⟩
        · constructor
          · intro ⟨ids, hok⟩ p hp hplen
            simp only [encodeLoop, hpos, if_true, hw] at hok
            cases hrec : encodeLoop trie s q fuel with
            | error er2 => rw [hrec] at hok; simp at hok
            | ok ids2 =>
              rcases reaches_inv trie s pos q v hw p hp with h4 | h4
              · subst h4
                rw [hw]
                simp
              · exact (ihiff.mp ⟨ids2, hrec⟩) p h4 hplen
          · intro hall
            have hall2 : ∀ p, Reaches trie s q p → p < s.length →
                trie.walk (s.drop p) p none ≠ none := by
              intro p hp hplen
              exact hall p (reaches_prepend trie s pos q v hpos hw p hp) hplen
            obtain ⟨ids, hok⟩ := ihiff.mpr hall2
            refine ⟨v.toNat :: ids, ?_⟩
            simp only [encodeLoop, hpos, if_true, hw, hok]
    · constructor
      · intro er her
        simp only [encodeLoop, hpos, if_false] at her
        simp at her
      · constructor
        · intro _ p hp hplen
          have := reaches_of_le trie s pos (by omega) p hp
          omega
        · intro _
          exact ⟨[], by simp only [encodeLoop, hpos, if_false]⟩

/-- Claim C8: `encode` fails with `UnsupportedOption` for every input when
`parse_special` is false; with `parse_special` true it fails with
`NoMatch(position, byte)` exactly when the greedy scan reaches an in-range
offset whose walk finds no terminal match — the error carries that offset
and the byte there — and succeeds otherwise. -/
theorem encode_error_contract (toks : List (List Nat)) (s : List Nat) :
    mockEncode toks s false = .error .unsupportedOption ∧
    (∀ er, mockEncode toks s true = .error er →
      ∃ p, Reaches (ByteTrie.ofTokens toks) s 0 p ∧ p < s.length ∧
        (ByteTrie.ofTokens toks).walk (s.drop p) p none = none ∧
        er = .noMatch p (s.getD p 0)) ∧
    ((∃ ids, mockEncode toks s true = .ok ids) ↔
      ∀ p, Reaches (ByteTrie.ofTokens toks) s 0 p → p < s.length →
        (ByteTrie.ofTokens toks).walk (s.drop p) p none ≠ none) := by
  obtain ⟨herr, hiff⟩ := encodeLoop_spec (ByteTrie.ofTokens toks) s s.length 0 (by omega)
  exact ⟨rfl, by simpa [mockEncode] using herr, by simpa [mockEncode] using hiff⟩

/-- Witness for C8 over the one-token table `[b"a"]` and the input `b"b"`:
`parse_special=False` raises `UnsupportedOption`, and the `NoMatch` error of
the greedy scan carries offset 0 and byte 98. -/
theorem encode_error_contract_witness :
    mockEncode [[97]] [98] false = .error .unsupportedOption ∧
    ∃ p, Reaches (ByteTrie.ofTokens [[97]]) [98] 0 p ∧ p < ([98] : List Nat).length ∧
      (ByteTrie.ofTokens [[97]]).walk (([98] : List Nat).drop p) p none = none ∧
      EncodeError.noMatch 0 98 = .noMatch p (([98] : List Nat).getD p 0) :=
  ⟨(encode_error_contract [[97]] [98]).1,
    (encode_error_contract [[97]] [98]).2.1 (.noMatch 0 98) rfl⟩
